import Mathlib

/-!
Verification of the ZooKeeper leader detector
(`src/zookeeper/detector.cpp`, namespace `zookeeper`).

The detector is a single-threaded actor (`LeaderDetectorProcess`) whose
private state is a current leader (`Option<Group::Membership>`) and a set
of outstanding promises.  Because the actor's mailbox serializes all
handlers (`initialize`, `detect`, `watched`, destruction), the process is
embedded as a deterministic state-transition system: each handler is a
pure function from the detector state to a new state together with the
list of externally visible actions it performs (arming a `Group::watch`,
fulfilling / failing / discarding a promise).
-/

namespace ZkDetector

/-- `Group::Membership` as the detector consumes it.  Declared in
`zookeeper/group.hpp` (not part of the extracted sources); the detector
only relies on its identity and its order.
Modelled from the spec: a Membership carries a totally ordered `id`
assigned at join time, and two Memberships are equal iff their `id`s are
equal ("smaller `id` means older membership"). -/
structure Membership where
  id : Nat
deriving DecidableEq, Repr

/-- `std::min` on `Group::Membership` under `operator<`.
Modelled from the spec: Memberships are compared by `id`; `std::min`
returns its first argument when neither is smaller. -/
def membershipMin (a b : Membership) : Membership :=
  if b.id < a.id then b else a

/-- stout's `min(Option<T>, T)` as used by the election loop
(`current = min(current, membership)`).
Modelled from the spec (§9 "Min-with-absent semantics"): absent acts as
the identity element, so the first present value becomes the running
minimum. -/
def optionMin (a : Option Membership) (b : Membership) : Option Membership :=
  match a with
  | none => some (b)
  | some x => some (membershipMin x b)

/-- The election loop of `LeaderDetectorProcess::watched`:
`Option<Group::Membership> current; foreach membership: current =
min(current, membership);`.  The snapshot set is embedded as the list of
its elements. -/
def electLeader (snapshot : List Membership) : Option Membership :=
  snapshot.foldl optionMin none

/-- One outstanding promise in the `promises` set.  `pid` identifies the
heap-allocated `Promise` object; `createdPrev` is ghost data recording
the `previous` argument of the `detect` call that created it (the C++
object stores no such field; it is carried here only to state
invariants and does not influence any transition). -/
structure Pending where
  pid : Nat
  createdPrev : Option Membership
deriving DecidableEq, Repr

/-- The private state of `LeaderDetectorProcess`: the incumbent `leader`
and the `promises` set.  `nextId` is the allocator for fresh promise
identities (in C++, a fresh heap address from `new Promise`). -/
structure DetectorState where
  leader : Option Membership
  promises : List Pending
  nextId : Nat
deriving DecidableEq, Repr

/-- The constructor `LeaderDetectorProcess(Group*)`: `leader(None())` and
an empty promise set. -/
def initialState : DetectorState :=
  { leader := none, promises := [], nextId := 0 }

/-- Externally visible effects of a handler: arming `group->watch(expected)`,
and settling a promise (`set`, `fail` with a reason, or `discard`). -/
inductive Action where
  | watch (expected : List Membership)
  | complete (p : Nat) (v : Option Membership)
  | failP (p : Nat) (reason : String)
  | discardP (p : Nat)
deriving DecidableEq, Repr

/-- `LeaderDetectorProcess::initialize()`: `watch(set<Group::Membership>())`
— arm one watch with the empty baseline; the state is untouched.  (The
C++ name is a reserved word in Lean, hence `onStart`.) -/
def onStart (s : DetectorState) : DetectorState × List Action :=
  (s, [Action.watch []])

/-- Result a `detect` call hands back to its caller: an already-completed
future, or the not-yet-fulfilled future of a freshly queued promise. -/
inductive DetectResult where
  | immediate (v : Option Membership)
  | queued (pid : Nat)
deriving DecidableEq, Repr

/-- `LeaderDetectorProcess::detect(previous)`: if `leader != previous`
return `leader` immediately; otherwise allocate a promise, insert it in
`promises`, and return its future. -/
def detect (previous : Option Membership) (s : DetectorState) :
    DetectResult × DetectorState :=
  if s.leader ≠ previous then
    (DetectResult.immediate s.leader, s)
  else
    (DetectResult.queued s.nextId,
     { s with
        promises := s.promises ++ [⟨s.nextId, previous⟩],
        nextId := s.nextId + 1 })

/-- The settled `Future<set<Group::Membership>>` handed to `watched`. -/
inductive WatchResult where
  | discarded
  | failed (reason : String)
  | ready (snapshot : List Membership)
deriving DecidableEq, Repr

/-- The failure branch of `LeaderDetectorProcess::watched`: set `leader`
to `None()`, fail every promise with `memberships.failure()`, clear the
set, and return without re-arming a watch. -/
def watchedFailed (reason : String) (s : DetectorState) :
    DetectorState × List Action :=
  ({ s with leader := none, promises := [] },
   s.promises.map (fun p => Action.failP p.pid reason))

/-- The success branch of `LeaderDetectorProcess::watched`: run the
election over the snapshot; if the winner differs from the incumbent,
fulfill every promise with the winner and clear the set; in either case
store the winner in `leader` and re-arm `watch(memberships.get())`. -/
def watchedReady (snapshot : List Membership) (s : DetectorState) :
    DetectorState × List Action :=
  let current := electLeader snapshot
  if current ≠ s.leader then
    ({ s with leader := current, promises := [] },
     (s.promises.map (fun p => Action.complete p.pid current)) ++
       [Action.watch snapshot])
  else
    ({ s with leader := current }, [Action.watch snapshot])

/-- `LeaderDetectorProcess::watched(memberships)`.  `CHECK(!isDiscarded())`
aborts the process on a discarded result, embedded as `none`; otherwise
exactly one of the failure / success branches runs. -/
def watched (r : WatchResult) (s : DetectorState) :
    Option (DetectorState × List Action) :=
  match r with
  | WatchResult.discarded => none
  | WatchResult.failed reason => some (watchedFailed reason s)
  | WatchResult.ready snapshot => some (watchedReady snapshot s)

/-- `LeaderDetectorProcess::~LeaderDetectorProcess()`: discard every
outstanding promise's future, delete it, and clear `promises`. -/
def destroy (s : DetectorState) : DetectorState × List Action :=
  ({ s with promises := [] },
   s.promises.map (fun p => Action.discardP p.pid))

/-- A run of consecutive successful `watched` deliveries: the state after
folding `watchedReady` over the snapshots, together with all actions
performed along the way, in order. -/
def runSnapshots : List (List Membership) → DetectorState →
    DetectorState × List Action
  | [], s => (s, [])
  | snap :: rest, s =>
      ((runSnapshots rest (watchedReady snap s).1).1,
       (watchedReady snap s).2 ++ (runSnapshots rest (watchedReady snap s).1).2)

/-- Does the action arm a `Group::watch`? -/
def isWatchAct : Action → Bool
  | Action.watch _ => true
  | _ => false

/-- The pending-queue invariant: every outstanding promise was created by
a `detect` call whose `previous` equalled the then-current `leader`, and
the queue is drained whenever `leader` changes — so between handler runs
every pending promise's creation context equals the current `leader`. -/
def Inv (s : DetectorState) : Prop :=
  ∀ p ∈ s.promises, p.createdPrev = s.leader

/-! ### Election lemmas -/

theorem membershipMin_id_le_left (a b : Membership) :
    (membershipMin a b).id ≤ a.id := by
  unfold membershipMin; split <;> omega

theorem membershipMin_id_le_right (a b : Membership) :
    (membershipMin a b).id ≤ b.id := by
  unfold membershipMin; split <;> omega

theorem membershipMin_eq_or (a b : Membership) :
    membershipMin a b = a ∨ membershipMin a b = b := by
  unfold membershipMin; split
  · exact Or.inr rfl
  · exact Or.inl rfl

theorem foldl_optionMin_some (l : List Membership) (a : Membership) :
    ∃ m, l.foldl optionMin (some a) = some m ∧ (m = a ∨ m ∈ l) ∧
      m.id ≤ a.id ∧ ∀ x ∈ l, m.id ≤ x.id := by
  induction l generalizing a with
  | nil => exact ⟨a, rfl, Or.inl rfl, le_refl _, by simp⟩
  | cons b t ih =>
      obtain ⟨m, hm, hmem, hle, hall⟩ := ih (membershipMin a b)
      refine ⟨m, ?_, ?_, ?_, ?_⟩
      · simpa [optionMin] using hm
      · rcases hmem with h | h
        · rcases membershipMin_eq_or a b with h' | h'
          · exact Or.inl (h.trans h')
          · exact Or.inr (by simp [h.trans h'])
        · exact Or.inr (List.mem_cons_of_mem _ h)
      · exact hle.trans (membershipMin_id_le_left a b)
      · intro x hx
        rcases List.mem_cons.mp hx with h | h
        · exact h ▸ hle.trans (membershipMin_id_le_right a b)
        · exact hall x h

theorem electLeader_nil : electLeader [] = none := rfl

theorem electLeader_cons (b : Membership) (t : List Membership) :
    electLeader (b :: t) = t.foldl optionMin (some b) := rfl

/-- The election over a non-empty snapshot yields a member of the
snapshot whose `id` is minimal, and that member is unique. -/
theorem electLeader_spec (snapshot : List Membership) (h : snapshot ≠ []) :
    ∃ m, electLeader snapshot = some m ∧ m ∈ snapshot ∧
      (∀ x ∈ snapshot, m.id ≤ x.id) ∧
      ∀ m', m' ∈ snapshot → (∀ x ∈ snapshot, m'.id ≤ x.id) → m' = m := by
  cases snapshot with
  | nil => exact absurd rfl h
  | cons b t =>
      obtain ⟨m, hm, hmem, hle, hall⟩ := foldl_optionMin_some t b
      have hmem' : m ∈ b :: t := by
        rcases hmem with h' | h'
        · simp [h']
        · exact List.mem_cons_of_mem _ h'
      have hmin : ∀ x ∈ b :: t, m.id ≤ x.id := by
        intro x hx
        rcases List.mem_cons.mp hx with h' | h'
        · exact h' ▸ hle
        · exact hall x h'
      refine ⟨m, by simpa [electLeader_cons] using hm, hmem', hmin, ?_⟩
      intro m' hm' hmin'
      have h1 : m'.id ≤ m.id := hmin' m hmem'
      have h2 : m.id ≤ m'.id := hmin m' hm'
      cases m; cases m'
      simp_all
      omega

/-- C1: for every successful `watched` delivery the recomputed leader
candidate is obtained from the snapshot alone (whatever the incumbent
state, `watchedReady` stores `electLeader snapshot` in `leader`);
`electLeader` of the empty snapshot is absent, and of a non-empty
snapshot is the unique member with the minimum `id`. -/
theorem watched_elects_min_id (snapshot : List Membership) :
    electLeader [] = none ∧
    (∀ s : DetectorState, (watchedReady snapshot s).1.leader =
      electLeader snapshot) ∧
    (snapshot ≠ [] →
      ∃ m, electLeader snapshot = some m ∧ m ∈ snapshot ∧
        (∀ x ∈ snapshot, m.id ≤ x.id) ∧
        ∀ m', m' ∈ snapshot → (∀ x ∈ snapshot, m'.id ≤ x.id) → m' = m) := by
  refine ⟨rfl, ?_, electLeader_spec snapshot⟩
  intro s
  unfold watchedReady
  dsimp only
  split <;> rfl

/-- Witness for C1 at the concrete snapshot `{id 3, id 1, id 2}`. -/
theorem watched_elects_min_id_w :
    ∃ m, electLeader ([⟨3⟩, ⟨1⟩, ⟨2⟩] : List Membership) = some m ∧
      m ∈ ([⟨3⟩, ⟨1⟩, ⟨2⟩] : List Membership) ∧
      (∀ x ∈ ([⟨3⟩, ⟨1⟩, ⟨2⟩] : List Membership), m.id ≤ x.id) ∧
      ∀ m', m' ∈ ([⟨3⟩, ⟨1⟩, ⟨2⟩] : List Membership) →
        (∀ x ∈ ([⟨3⟩, ⟨1⟩, ⟨2⟩] : List Membership), m'.id ≤ x.id) → m' = m :=
  (watched_elects_min_id [⟨3⟩, ⟨1⟩, ⟨2⟩]).2.2 (by decide)

/-! ### Direct handler properties -/

/-- C2: a `detect(previous)` call made while the current leader differs
from `previous` (by `Option` comparison) completes immediately with the
current leader, leaves the state untouched, and the returned value is
never `previous`. -/
theorem detect_immediate_on_change (previous : Option Membership)
    (s : DetectorState) (h : s.leader ≠ previous) :
    detect previous s = (DetectResult.immediate s.leader, s) ∧
    DetectResult.immediate s.leader ≠ DetectResult.immediate previous := by
  constructor
  · simp [detect, h]
  · simpa using h

/-- Witness for C2: a fresh detector answers `detect(Some(id 1))`
immediately with its absent leader. -/
theorem detect_immediate_on_change_w :
    detect (some (Membership.mk 1)) initialState =
      (DetectResult.immediate initialState.leader, initialState) ∧
    DetectResult.immediate initialState.leader ≠
      DetectResult.immediate (some (Membership.mk 1)) :=
  detect_immediate_on_change (some (Membership.mk 1)) initialState (by decide)

/-- C5: a failed watch result sets `leader` to absent, fails every
pending promise with the propagated failure reason verbatim, and empties
the pending set. -/
theorem watched_failure_fanout (reason : String) (s : DetectorState) :
    watched (WatchResult.failed reason) s = some (watchedFailed reason s) ∧
    (watchedFailed reason s).1.leader = none ∧
    (watchedFailed reason s).1.promises = [] ∧
    (watchedFailed reason s).2 =
      s.promises.map (fun p => Action.failP p.pid reason) ∧
    ∀ p ∈ s.promises, Action.failP p.pid reason ∈ (watchedFailed reason s).2 := by
  refine ⟨rfl, rfl, rfl, rfl, ?_⟩
  intro p hp
  exact List.mem_map_of_mem _ hp

theorem filter_isWatchAct_map (f : Pending → Action) (l : List Pending)
    (hf : ∀ p, isWatchAct (f p) = false) :
    (l.map f).filter isWatchAct = [] := by
  induction l with
  | nil => rfl
  | cons a t ih => simp [List.filter_cons, hf, ih]

/-- C6: watches are armed exactly at actor start (empty baseline) and at
the end of every successful `watched` run (the observed snapshot as the
new baseline); a failed `watched` run arms no watch at all. -/
theorem watch_rearm_discipline (s : DetectorState) :
    (onStart s) = (s, [Action.watch []]) ∧
    (∀ snapshot, (watchedReady snapshot s).2.filter isWatchAct =
      [Action.watch snapshot]) ∧
    (∀ reason, (watchedFailed reason s).2.filter isWatchAct = []) := by
  refine ⟨rfl, ?_, ?_⟩
  · intro snapshot
    unfold watchedReady
    dsimp only
    split
    · rw [List.filter_append]
      rw [filter_isWatchAct_map (fun p => Action.complete p.pid
        (electLeader snapshot)) s.promises (fun p => rfl)]
      rfl
    · rfl
  · intro reason
    exact filter_isWatchAct_map (fun p => Action.failP p.pid reason)
      s.promises (fun p => rfl)

/-- C7: when the recomputed candidate equals the incumbent leader, the
successful `watched` run settles no promise (the only action is the
re-armed watch), leaves `promises` unchanged, and stores the (equal)
candidate so that `leader` is observably unchanged. -/
theorem no_spurious_fulfillment (snapshot : List Membership)
    (s : DetectorState) (h : electLeader snapshot = s.leader) :
    watchedReady snapshot s =
      ({ s with leader := electLeader snapshot }, [Action.watch snapshot]) ∧
    (watchedReady snapshot s).1.promises = s.promises ∧
    (watchedReady snapshot s).1.leader = s.leader := by
  have hns : ¬ (electLeader snapshot ≠ s.leader) := by simpa using h
  have heq : watchedReady snapshot s =
      ({ s with leader := electLeader snapshot }, [Action.watch snapshot]) := by
    unfold watchedReady
    dsimp only
    rw [if_neg hns]
  exact ⟨heq, by rw [heq], by rw [heq]; exact h⟩

/-- Witness for C7: the incumbent `id 1` survives the snapshot
`{id 1, id 2}`; the queued promise is untouched. -/
theorem no_spurious_fulfillment_w :
    (watchedReady [Membership.mk 1, Membership.mk 2]
        { leader := some (Membership.mk 1),
          promises := [⟨0, some (Membership.mk 1)⟩],
          nextId := 1 }).1.promises = [⟨0, some (Membership.mk 1)⟩] ∧
    (watchedReady [Membership.mk 1, Membership.mk 2]
        { leader := some (Membership.mk 1),
          promises := [⟨0, some (Membership.mk 1)⟩],
          nextId := 1 }).1.leader = some (Membership.mk 1) := by
  have h := no_spurious_fulfillment [Membership.mk 1, Membership.mk 2]
    { leader := some (Membership.mk 1),
      promises := [⟨0, some (Membership.mk 1)⟩],
      nextId := 1 } (by decide)
  exact ⟨h.2.1, h.2.2⟩

/-- C8: teardown discards every outstanding promise — one discard action
per pending request, none skipped — and empties the pending set. -/
theorem teardown_discards_all (s : DetectorState) :
    (destroy s).1.promises = [] ∧
    (destroy s).2 = s.promises.map (fun p => Action.discardP p.pid) ∧
    (destroy s).2.length = s.promises.length ∧
    ∀ p ∈ s.promises, Action.discardP p.pid ∈ (destroy s).2 := by
  refine ⟨rfl, rfl, by simp [destroy], ?_⟩
  intro p hp
  exact List.mem_map_of_mem _ hp

/-- C9: `watched` treats a discarded watch result as a fatal invariant
violation (no successor state); for every non-discarded result it
proceeds, taking exactly the failure branch on a failed result and
exactly the success branch on a ready result. -/
theorem watched_discard_fatal (s : DetectorState) :
    watched WatchResult.discarded s = none ∧
    ∀ r : WatchResult, r ≠ WatchResult.discarded →
      (∃ reason, r = WatchResult.failed reason ∧
        watched r s = some (watchedFailed reason s)) ∨
      (∃ snapshot, r = WatchResult.ready snapshot ∧
        watched r s = some (watchedReady snapshot s)) := by
  refine ⟨rfl, ?_⟩
  intro r hr
  cases r with
  | discarded => exact absurd rfl hr
  | failed reason => exact Or.inl ⟨reason, rfl, rfl⟩
  | ready snapshot => exact Or.inr ⟨snapshot, rfl, rfl⟩

/-- Witness for C9 at a concrete failed result. -/
theorem watched_discard_fatal_w :
    watched WatchResult.discarded initialState = none ∧
    ((∃ reason, WatchResult.failed "session expired" =
        WatchResult.failed reason ∧
      watched (WatchResult.failed "session expired") initialState =
        some (watchedFailed reason initialState)) ∨
     (∃ snapshot, WatchResult.failed "session expired" =
        WatchResult.ready snapshot ∧
      watched (WatchResult.failed "session expired") initialState =
        some (watchedReady snapshot initialState))) :=
  ⟨(watched_discard_fatal initialState).1,
   (watched_discard_fatal initialState).2
     (WatchResult.failed "session expired") (by decide)⟩

/-- C10: a freshly constructed detector has no leader and no pending
requests, so before any snapshot is processed `detect(Some m)` answers
immediately with absent and `detect(absent)` queues a pending request. -/
theorem fresh_detector_behavior :
    initialState.leader = none ∧ initialState.promises = [] ∧
    (∀ m : Membership, detect (some m) initialState =
      (DetectResult.immediate none, initialState)) ∧
    detect none initialState =
      (DetectResult.queued 0,
       { leader := none, promises := [⟨0, none⟩], nextId := 1 }) := by
  refine ⟨rfl, rfl, ?_, by decide⟩
  intro m
  simp [detect, initialState]

/-! ### Pending-queue lemmas -/

theorem watchedReady_leader (snapshot : List Membership) (s : DetectorState) :
    (watchedReady snapshot s).1.leader = electLeader snapshot := by
  unfold watchedReady
  dsimp only
  split <;> rfl

theorem watchedReady_promises (snapshot : List Membership)
    (s : DetectorState) :
    (watchedReady snapshot s).1.promises = s.promises ∨
    (watchedReady snapshot s).1.promises = [] := by
  unfold watchedReady
  dsimp only
  split
  · exact Or.inr rfl
  · exact Or.inl rfl

theorem watchedReady_drain (snapshot : List Membership) (s : DetectorState)
    (hc : electLeader snapshot ≠ s.leader) :
    (watchedReady snapshot s).1.promises = [] := by
  unfold watchedReady
  dsimp only
  split
  · rfl
  · rename_i hns
    exact absurd hc hns

theorem watchedReady_keep (snapshot : List Membership) (s : DetectorState)
    (hc : electLeader snapshot = s.leader) :
    (watchedReady snapshot s).1.promises = s.promises ∧
    (watchedReady snapshot s).2 = [Action.watch snapshot] := by
  unfold watchedReady
  dsimp only
  split
  · rename_i hns
    exact absurd hc hns
  · exact ⟨rfl, rfl⟩

theorem watchedReady_completes_all (snapshot : List Membership)
    (s : DetectorState) (hc : electLeader snapshot ≠ s.leader)
    (p : Pending) (hp : p ∈ s.promises) :
    Action.complete p.pid (electLeader snapshot) ∈
      (watchedReady snapshot s).2 := by
  unfold watchedReady
  dsimp only
  split
  · exact List.mem_append.mpr (Or.inl (List.mem_map_of_mem _ hp))
  · rename_i hns
    exact absurd hc hns

theorem watchedReady_complete_mem (snapshot : List Membership)
    (s : DetectorState) (q : Nat) (v : Option Membership)
    (h : Action.complete q v ∈ (watchedReady snapshot s).2) :
    v = electLeader snapshot ∧ v ≠ s.leader ∧
      ∃ p ∈ s.promises, p.pid = q := by
  unfold watchedReady at h
  dsimp only at h
  split at h
  · rename_i hc
    rcases List.mem_append.mp h with h' | h'
    · rcases List.mem_map.mp h' with ⟨p, hp, hpe⟩
      simp only [Action.complete.injEq] at hpe
      exact ⟨hpe.2.symm, hpe.2.symm ▸ hc, p, hp, hpe.1⟩
    · simp at h'
  · simp at h

/-- If the queue is empty, a run of successful deliveries never emits a
completion (the queue stays empty and only watches are armed). -/
theorem runSnapshots_no_complete (ss : List (List Membership))
    (s : DetectorState) (h : s.promises = []) (q : Nat)
    (v : Option Membership) :
    Action.complete q v ∉ (runSnapshots ss s).2 := by
  induction ss generalizing s with
  | nil => simp [runSnapshots]
  | cons snap rest ih =>
      intro hm
      rcases List.mem_append.mp hm with h1 | h2
      · obtain ⟨_, _, p, hp, _⟩ := watchedReady_complete_mem snap s q v h1
        rw [h] at hp
        simp at hp
      · refine ih (watchedReady snap s).1 ?_ h2
        rcases watchedReady_promises snap s with he | he
        · rw [he, h]
        · exact he

/-- Any completion emitted during a run of successful deliveries carries
a value different from the leader at the start of the run, and that
value is the election winner of one of the delivered snapshots. -/
theorem runSnapshots_complete_ne (ss : List (List Membership))
    (s : DetectorState) (q : Nat) (v : Option Membership)
    (hm : Action.complete q v ∈ (runSnapshots ss s).2) :
    v ≠ s.leader ∧ ∃ snap ∈ ss, v = electLeader snap := by
  induction ss generalizing s with
  | nil => simp [runSnapshots] at hm
  | cons snap rest ih =>
      rcases List.mem_append.mp hm with h1 | h2
      · obtain ⟨hv, hne, _⟩ := watchedReady_complete_mem snap s q v h1
        exact ⟨hne, snap, List.mem_cons_self _ _, hv⟩
      · by_cases hc : electLeader snap = s.leader
        · have hl : (watchedReady snap s).1.leader = s.leader :=
            (watchedReady_leader snap s).trans hc
          obtain ⟨hne, snap', hs', hv⟩ := ih (watchedReady snap s).1 h2
          exact ⟨hl ▸ hne, snap', List.mem_cons_of_mem _ hs', hv⟩
        · exact absurd h2 (runSnapshots_no_complete rest _
            (watchedReady_drain snap s hc) q v)

/-- While every delivered snapshot re-elects the incumbent, the run
changes neither the leader nor the queue. -/
theorem runSnapshots_stable (ss : List (List Membership))
    (s : DetectorState) (h : ∀ snap ∈ ss, electLeader snap = s.leader) :
    (runSnapshots ss s).1.promises = s.promises ∧
    (runSnapshots ss s).1.leader = s.leader := by
  induction ss generalizing s with
  | nil => exact ⟨rfl, rfl⟩
  | cons snap rest ih =>
      have hc : electLeader snap = s.leader := h snap (List.mem_cons_self _ _)
      have hk := watchedReady_keep snap s hc
      have hl : (watchedReady snap s).1.leader = s.leader :=
        (watchedReady_leader snap s).trans hc
      have ih' := ih (watchedReady snap s).1
        (fun sn hsn => ((h sn (List.mem_cons_of_mem _ hsn)).trans hl.symm))
      exact ⟨ih'.1.trans hk.1, ih'.2.trans hl⟩

theorem runSnapshots_append (ss ts : List (List Membership))
    (s : DetectorState) :
    runSnapshots (ss ++ ts) s =
      ((runSnapshots ts (runSnapshots ss s).1).1,
       (runSnapshots ss s).2 ++ (runSnapshots ts (runSnapshots ss s).1).2) := by
  induction ss generalizing s with
  | nil => simp [runSnapshots]
  | cons snap rest ih => simp [runSnapshots, ih]

/-! ### Invariant preservation -/

theorem inv_initial : Inv initialState := by
  intro p hp
  simp [initialState] at hp

theorem inv_detect (previous : Option Membership) (s : DetectorState)
    (h : Inv s) : Inv (detect previous s).2 := by
  unfold detect
  by_cases hc : s.leader ≠ previous
  · rw [if_pos hc]
    exact h
  · rw [if_neg hc]
    have hl : s.leader = previous := not_not.mp hc
    intro p hp
    dsimp only at hp ⊢
    rcases List.mem_append.mp hp with h' | h'
    · exact h p h'
    · simp only [List.mem_singleton] at h'
      subst h'
      exact hl.symm

theorem inv_watchedReady (snapshot : List Membership) (s : DetectorState)
    (h : Inv s) : Inv (watchedReady snapshot s).1 := by
  unfold watchedReady
  dsimp only
  split
  · intro p hp
    simp at hp
  · rename_i hc
    have hl : electLeader snapshot = s.leader := not_not.mp hc
    intro p hp
    exact (h p hp).trans hl.symm

theorem inv_watchedFailed (reason : String) (s : DetectorState) :
    Inv (watchedFailed reason s).1 := by
  intro p hp
  simp [watchedFailed] at hp

theorem inv_destroy (s : DetectorState) : Inv (destroy s).1 := by
  intro p hp
  simp [destroy] at hp

theorem inv_runSnapshots (ss : List (List Membership)) (s : DetectorState)
    (h : Inv s) : Inv (runSnapshots ss s).1 := by
  induction ss generalizing s with
  | nil => exact h
  | cons snap rest ih =>
      exact ih (watchedReady snap s).1 (inv_watchedReady snap s h)

/-- C3: a `detect(previous)` call made while the current leader equals
`previous` queues exactly one new pending request and returns its
unfulfilled handle; over any following run of successful deliveries the
handle is never completed with a value equal to `previous`, it stays
pending while every delivered snapshot re-elects `previous`, and at the
first snapshot electing a different leader it is completed with exactly
that new leader. -/
theorem detect_queue_and_fulfill (previous : Option Membership)
    (s : DetectorState) (h : s.leader = previous) :
    (detect previous s).1 = DetectResult.queued s.nextId ∧
    (detect previous s).2.promises =
      s.promises ++ [⟨s.nextId, previous⟩] ∧
    (detect previous s).2.leader = s.leader ∧
    (∀ ss : List (List Membership), ∀ q : Nat, ∀ v : Option Membership,
      Action.complete q v ∈ (runSnapshots ss (detect previous s).2).2 →
        v ≠ previous) ∧
    (∀ ss : List (List Membership),
      (∀ snap ∈ ss, electLeader snap = previous) →
      (⟨s.nextId, previous⟩ : Pending) ∈
        (runSnapshots ss (detect previous s).2).1.promises) ∧
    (∀ ss : List (List Membership), ∀ snap : List Membership,
      (∀ sn ∈ ss, electLeader sn = previous) →
      electLeader snap ≠ previous →
      Action.complete s.nextId (electLeader snap) ∈
        (runSnapshots (ss ++ [snap]) (detect previous s).2).2) := by
  have hd : detect previous s =
      (DetectResult.queued s.nextId,
       { s with promises := s.promises ++ [⟨s.nextId, previous⟩],
                nextId := s.nextId + 1 }) := by
    unfold detect
    rw [if_neg (not_not_intro h)]
  rw [hd]
  set s1 : DetectorState :=
    { s with promises := s.promises ++ [⟨s.nextId, previous⟩],
             nextId := s.nextId + 1 } with hs1
  have hl1 : s1.leader = previous := h
  have hmem1 : (⟨s.nextId, previous⟩ : Pending) ∈ s1.promises :=
    List.mem_append.mpr (Or.inr (List.mem_singleton.mpr rfl))
  refine ⟨rfl, rfl, rfl, ?_, ?_, ?_⟩
  · intro ss q v hm
    have hne := (runSnapshots_complete_ne ss s1 q v hm).1
    rw [hl1] at hne
    exact hne
  · intro ss hss
    have hst := runSnapshots_stable ss s1
      (fun sn hsn => (hss sn hsn).trans hl1.symm)
    rw [hst.1]
    exact hmem1
  · intro ss snap hss hc
    have hst := runSnapshots_stable ss s1
      (fun sn hsn => (hss sn hsn).trans hl1.symm)
    have hc2 : electLeader snap ≠ (runSnapshots ss s1).1.leader := by
      rw [hst.2, hl1]
      exact hc
    have hp2 : (⟨s.nextId, previous⟩ : Pending) ∈
        (runSnapshots ss s1).1.promises := by
      rw [hst.1]
      exact hmem1
    have hcm := watchedReady_completes_all snap (runSnapshots ss s1).1 hc2
      ⟨s.nextId, previous⟩ hp2
    rw [runSnapshots_append]
    exact List.mem_append.mpr (Or.inr (List.mem_append.mpr (Or.inl hcm)))

/-- Witness for C3: a fresh detector queues `detect(absent)` as promise 0
and the first snapshot electing `id 2` completes it with `Some(id 2)`. -/
theorem detect_queue_and_fulfill_w :
    (detect none initialState).1 = DetectResult.queued 0 ∧
    Action.complete 0 (electLeader [Membership.mk 2, Membership.mk 5]) ∈
      (runSnapshots ([] ++ [[Membership.mk 2, Membership.mk 5]])
        (detect none initialState).2).2 := by
  have h := detect_queue_and_fulfill none initialState (by decide)
  exact ⟨h.1, h.2.2.2.2.2 [] [Membership.mk 2, Membership.mk 5]
    (by simp) (by decide)⟩

/-- C4: the pending-queue invariant — every queued promise was created
with a `previous` equal to the then-current leader — holds initially and
is preserved by every handler; consequently a `detect` caller never
receives, immediately or through a later fulfillment, a successful value
equal to the `previous` it passed in. -/
theorem pending_matches_leader (s : DetectorState) (h : Inv s) :
    Inv initialState ∧
    (∀ previous, Inv (detect previous s).2) ∧
    (∀ snapshot, Inv (watchedReady snapshot s).1) ∧
    (∀ reason, Inv (watchedFailed reason s).1) ∧
    (∀ p ∈ s.promises, p.createdPrev = s.leader) ∧
    (∀ previous, s.leader ≠ previous →
      (detect previous s).1 ≠ DetectResult.immediate previous) ∧
    (∀ snapshot, ∀ q : Nat, ∀ v : Option Membership,
      Action.complete q v ∈ (watchedReady snapshot s).2 →
      ∀ p ∈ s.promises, p.pid = q → v ≠ p.createdPrev) := by
  refine ⟨inv_initial, fun previous => inv_detect previous s h,
    fun snapshot => inv_watchedReady snapshot s h,
    fun reason => inv_watchedFailed reason s, h, ?_, ?_⟩
  · intro previous hne
    unfold detect
    rw [if_pos hne]
    simpa using hne
  · intro snapshot q v hm p hp _
    have hv := (watchedReady_complete_mem snapshot s q v hm).2.1
    rw [h p hp]
    exact hv

/-- Witness for C4 at a concrete one-promise state whose queued request
was created while `id 1` led. -/
theorem pending_matches_leader_w :
    Inv (detect (some (Membership.mk 2))
      { leader := some (Membership.mk 1),
        promises := [⟨0, some (Membership.mk 1)⟩], nextId := 1 }).2 ∧
    (detect none
      { leader := some (Membership.mk 1),
        promises := [⟨0, some (Membership.mk 1)⟩], nextId := 1 }).1 ≠
      DetectResult.immediate none := by
  have h := pending_matches_leader
    { leader := some (Membership.mk 1),
      promises := [⟨0, some (Membership.mk 1)⟩], nextId := 1 }
    (by intro p hp; simp at hp; subst hp; rfl)
  exact ⟨h.2.1 (some (Membership.mk 2)), h.2.2.2.2.2.1 none (by decide)⟩

end ZkDetector
